import Mathlib

set_option maxHeartbeats 1000000

/-!
Shallow embedding of the log-structured key/value engine in
`src/engines/kvs.rs` (struct `KvStore`, `KvStoreWriter`, `KvStoreReader`,
`Command`, `CommandPos`, `load_file_into_hashmap`, `KvStore::open`).

A segment file (`<gen>.log`) is modelled as the list of the command
records appended to it, in append order; byte offsets are recovered from
the encoded length of each record (`encLen`).  The disk is the list of
segments present in the store directory, kept in ascending generation
order (the code derives this order from the file names via
`sorted_gen_list`).  Machine integers (`u64`) carry byte counts and
generation numbers far below 2^64 here, so they are modelled as `Nat`.
Fallible paths return `Except KvsError`.
-/

namespace Kvs

/-- Log record: the two command variants persisted in segment files
(`enum Command` in `kvs.rs`). -/
inductive Command where
  | Set (key value : String)
  | Remove (key : String)
deriving Repr, DecidableEq

/-- Encoded byte length of one record under the JSON codec used by the
code: a `Set` serializes as the skeleton of
`\x7b"Set":\x7b"key":K,"value":V\x7d\x7d` plus the two payloads, a
`Remove` analogously.  The engine only observes lengths through
writer-position differences, so only positivity and additivity of this
function are load-bearing; the constants model the unescaped JSON
skeleton. -/
def encLen : Command → Nat
  | .Set k v => 29 + k.length + v.length
  | .Remove k => 21 + k.length

/-- Total byte length of a segment (the writer position after appending
all its records, `BufWriterWithPos.pos`). -/
def segLen (seg : List Command) : Nat := (seg.map encLen).sum

/-- Index entry `CommandPos`: generation, byte offset, byte length of the
record (`struct CommandPos` in `kvs.rs`). -/
structure CommandPos where
  gen : Nat
  pos : Nat
  len : Nat
deriving Repr, DecidableEq

/-- Error kinds of the engine (`KvsError`); `Io` covers filesystem
failures, `Serde` covers decode failures. -/
inductive KvsError where
  | KeyNotFound
  | UnexpectedCommandType
  | Io
  | Serde
deriving Repr, DecidableEq

/-- In-memory index: key to position of the current `Set` record.  The
code uses a concurrent `SkipMap`; point operations (`get`, `insert`,
`remove`) are modelled on an association list with unique keys.  (The
`SkipMap` iterates in key order while this list keeps insertion order;
since keys are unique the difference is unobservable through `get`.) -/
abbrev Index := List (String × CommandPos)

/-- Point lookup in the index (`SkipMap::get`). -/
def idxGet (k : String) : Index → Option CommandPos
  | [] => none
  | (k', cp) :: rest => if k' = k then some cp else idxGet k rest

/-- Point insert, replacing any existing entry (`SkipMap::insert`). -/
def idxInsert (k : String) (cp : CommandPos) : Index → Index
  | [] => [(k, cp)]
  | (k', cp') :: rest =>
    if k' = k then (k, cp) :: rest else (k', cp') :: idxInsert k cp rest

/-- Point removal (`SkipMap::remove`). -/
def idxRemove (k : String) : Index → Index
  | [] => []
  | (k', cp') :: rest => if k' = k then rest else (k', cp') :: idxRemove k rest

/-- The store directory: segments keyed by generation, ascending. -/
abbrev Disk := List (Nat × List Command)

/-- Contents of segment `g.log`, if that file exists. -/
def diskGet : Disk → Nat → Option (List Command)
  | [], _ => none
  | (g', seg) :: rest, g => if g' = g then some seg else diskGet rest g

/-- Contents of segment `g.log`, defaulting to empty. -/
def diskSeg (d : Disk) (g : Nat) : List Command := (diskGet d g).getD []

/-- Append one record to segment `g.log` (the buffered writer's append
followed by flush); segments of other generations are untouched. -/
def diskAppend : Disk → Nat → Command → Disk
  | [], _, _ => []
  | (g', seg) :: rest, g, c =>
    (if g' = g then (g', seg ++ [c]) else (g', seg)) :: diskAppend rest g c

/-- Append a batch of records to segment `g.log` (the compaction copy
loop writing through `compaction_writer`). -/
def diskWrite : Disk → Nat → List Command → Disk
  | [], _, _ => []
  | (g', seg) :: rest, g, cs =>
    (if g' = g then (g', seg ++ cs) else (g', seg)) :: diskWrite rest g cs

/-- Create `g.log` if absent (`OpenOptions::new().create(true)`); the
engine only ever creates generations above every existing one, so the
new entry goes at the end of the ascending list. -/
def diskCreate (d : Disk) (g : Nat) : Disk :=
  if (diskGet d g).isSome then d else d ++ [(g, [])]

/-- Delete `g.log` (`fs::remove_file`); file names are unique, so at
most one entry carries generation `g`. -/
def diskErase : Disk → Nat → Disk
  | [], _ => []
  | (g', seg) :: rest, g =>
    if g' = g then diskErase rest g else (g', seg) :: diskErase rest g

/-- Decode the record stored in `seg` at byte offset `p` with recorded
length `l`: the reader seeks to `p`, bounds the read to `l` bytes and
runs the JSON decoder, which succeeds exactly when the bounded window is
one whole record. -/
def readAt : List Command → Nat → Nat → Option Command
  | [], _, _ => none
  | c :: rest, p, l =>
    if p = 0 then (if l = encLen c then some c else none)
    else if p < encLen c then none
    else readAt rest (p - encLen c) l

/-- `KvStoreReader::read_command` at a `CommandPos`: opening the segment
file fails with an I/O error if the file is gone; a window that is not
one whole record fails to deserialize. -/
def readCommandD (d : Disk) (cp : CommandPos) : Except KvsError Command :=
  match diskGet d cp.gen with
  | none => .error .Io
  | some seg =>
    match readAt seg cp.pos cp.len with
    | some c => .ok c
    | none => .error .Serde

/-- The shared state of one open store: the directory contents, the
index, the active writer generation, the dead-byte counter, the atomic
safe point, and the generations with a cached reader handle
(`gen_2_reader` keys). -/
structure State where
  disk : Disk
  index : Index
  curGen : Nat
  uncompacted : Nat
  safePoint : Nat
  cache : List Nat
deriving Repr, DecidableEq

/-- Compaction trigger threshold (`COMPACTION_THRESHOLD = 1024 * 1024`). -/
def COMPACTION_THRESHOLD : Nat := 1024 * 1024

/-- `KvStoreReader::close_stale_handles`: drop every cached handle whose
generation is below the safe point (the `BTreeMap` loop removes the
smallest key while it is `< safe_point`). -/
def closeStaleHandles (s : State) : State :=
  { s with cache := s.cache.filter fun g => decide (s.safePoint ≤ g) }

/-- `<KvStore as KvsEngine>::get`: look the key up in the index; absent
keys yield `Ok(None)`; otherwise decode the record at the stored
position and return its value if it is a `Set`, failing with
`UnexpectedCommandType` on a `Remove`. -/
def getOp (s : State) (k : String) : Except KvsError (Option String) :=
  match idxGet k s.index with
  | none => .ok none
  | some cp =>
    match readCommandD s.disk cp with
    | .error e => .error e
    | .ok (.Set _ v) => .ok (some v)
    | .ok (.Remove _) => .error .UnexpectedCommandType

/-- The copy loop of `KvStoreWriter::compact`: iterate the index
entries, copy each referenced record (verbatim, `io::copy` bounded by
the entry length) to the compaction segment at the running offset, and
rewrite the entry to point into generation `cgen`.  Returns the
rewritten index together with the records written, in order. -/
def compactEntries (d : Disk) (cgen : Nat) :
    List (String × CommandPos) → Nat → Except KvsError (Index × List Command)
  | [], _ => .ok ([], [])
  | (k, cp) :: rest, pos =>
    match readCommandD d cp with
    | .error e => .error e
    | .ok c =>
      match compactEntries d cgen rest (pos + cp.len) with
      | .error e => .error e
      | .ok (ni, recs) => .ok ((k, ⟨cgen, pos, cp.len⟩) :: ni, c :: recs)

/-- `KvStoreWriter::compact`.  `fail g` says whether the `fs::remove_file`
of `g.log` fails; the code logs such a failure and carries on, so the
oracle never influences the success of compaction itself.  Creates the
compaction generation `cur_gen + 1` and the next writer generation
`cur_gen + 2`, copies every live record, publishes the safe point,
evicts stale reader handles, unlinks stale segments and resets the
dead-byte counter. -/
def compact (fail : Nat → Bool) (s : State) : Except KvsError State :=
  let cgen := s.curGen + 1
  let d1 := diskCreate s.disk cgen
  let ngen := s.curGen + 2
  let d2 := diskCreate d1 ngen
  match compactEntries d2 cgen s.index 0 with
  | .error e => .error e
  | .ok (ni, recs) =>
    let d3 := diskWrite d2 cgen recs
    let stale := (d3.map Prod.fst).filter fun g => decide (g < cgen)
    let d4 := stale.foldl (fun dd g => if fail g then dd else diskErase dd g) d3
    .ok { disk := d4, index := ni, curGen := ngen, uncompacted := 0,
          safePoint := cgen,
          cache := s.cache.filter fun g => decide (cgen ≤ g) }

/-- The state after the body of `KvStoreWriter::set` and before its
threshold check: append the encoded `Set` record at the current writer
position, credit the superseded record's length to the dead-byte
counter, and insert the new index entry `(cur_gen, pre..post)`. -/
def setPre (s : State) (k v : String) : State :=
  let cmd : Command := .Set k v
  let pos := segLen (diskSeg s.disk s.curGen)
  { s with disk := diskAppend s.disk s.curGen cmd,
           index := idxInsert k ⟨s.curGen, pos, encLen cmd⟩ s.index,
           uncompacted :=
             s.uncompacted +
               (match idxGet k s.index with | some old => old.len | none => 0) }

/-- `KvStoreWriter::set`: the write body followed by the compaction
trigger (`uncompacted > COMPACTION_THRESHOLD`). -/
def setOp (s : State) (k v : String) : Except KvsError State :=
  let s' := setPre s k v
  if COMPACTION_THRESHOLD < s'.uncompacted then compact (fun _ => false) s'
  else .ok s'

/-- The state after the body of `KvStoreWriter::remove` on a present key
`k` with prior entry `old`, before the threshold check: append a
`Remove` record, drop the index entry, and credit both the superseded
`Set` record's length and the `Remove` record's own length to the
dead-byte counter. -/
def removePre (s : State) (k : String) (old : CommandPos) : State :=
  { s with disk := diskAppend s.disk s.curGen (Command.Remove k),
           index := idxRemove k s.index,
           uncompacted := s.uncompacted + old.len + encLen (Command.Remove k) }

/-- `KvStoreWriter::remove`: fail with `KeyNotFound` if the key is
absent (checked before anything is written); otherwise the remove body
followed by the compaction trigger. -/
def removeOp (s : State) (k : String) : Except KvsError State :=
  match idxGet k s.index with
  | none => .error .KeyNotFound
  | some old =>
    let s' := removePre s k old
    if COMPACTION_THRESHOLD < s'.uncompacted then compact (fun _ => false) s'
    else .ok s'

/-- `load_file_into_hashmap`: replay one segment from offset 0, applying
each record to the index exactly as the online paths would, and
accumulate the dead-byte contribution (superseded `Set` records, plus
every `Remove` record's own bytes). -/
def loadSeg (g : Nat) : List Command → Nat → Index → Nat → Index × Nat
  | [], _, idx, unc => (idx, unc)
  | c :: rest, pos, idx, unc =>
    match c with
    | .Set k _ =>
      let unc' :=
        unc + (match idxGet k idx with | some old => old.len | none => 0)
      loadSeg g rest (pos + encLen c) (idxInsert k ⟨g, pos, encLen c⟩ idx) unc'
    | .Remove k =>
      let unc' :=
        unc + (match idxGet k idx with | some old => old.len | none => 0) + encLen c
      loadSeg g rest (pos + encLen c) (idxRemove k idx) unc'

/-- Replay every segment in list (= ascending generation) order,
rebuilding the index and the dead-byte counter (`KvStore::open`'s loop
over `sorted_gen_list`). -/
def loadDisk (d : Disk) : Index × Nat :=
  d.foldl (fun a p => loadSeg p.1 p.2 0 a.1 a.2) ([], 0)

/-- Insert one segment into a generation-sorted list. -/
def insertGen (p : Nat × List Command) : Disk → Disk
  | [] => [p]
  | q :: rest => if p.1 ≤ q.1 then p :: q :: rest else q :: insertGen p rest

/-- Sort segments by generation ascending (`sorted_gen_list`: the file
names are parsed and the generation numbers sorted). -/
def sortByGen : Disk → Disk
  | [] => []
  | p :: rest => insertGen p (sortByGen rest)

/-- Last generation of an ascending segment list, 0 if empty
(`gen_list.last().unwrap_or(&0)`). -/
def lastGen (d : Disk) : Nat := d.foldl (fun _ p => p.1) 0

/-- `KvStore::open` on a directory holding the segments `d`: sort by
generation, replay each segment, open a fresh active generation
`last + 1`, start the safe point at 0 and cache a reader handle per
replayed segment. -/
def openStore (d : Disk) : State :=
  let gl := sortByGen d
  let r := loadDisk gl
  let cg := lastGen gl + 1
  { disk := diskCreate gl cg, index := r.1, curGen := cg,
    uncompacted := r.2, safePoint := 0, cache := gl.map Prod.fst }

/-- A public mutating operation. -/
inductive Op where
  | set (k v : String)
  | remove (k : String)
deriving Repr, DecidableEq

/-- The key an operation touches. -/
def opKey : Op → String
  | .set k _ => k
  | .remove k => k

/-- Run one public operation (unlink failures do not occur in a nominal
run). -/
def applyOp (s : State) : Op → Except KvsError State
  | .set k v => setOp s k v
  | .remove k => removeOp s k

/-- Run a sequence of public operations, stopping at the first error. -/
def run (s : State) : List Op → Except KvsError State
  | [] => .ok s
  | op :: rest =>
    match applyOp s op with
    | .ok s' => run s' rest
    | .error e => .error e

/-- A state reachable by the public API: open an empty directory, run
successful mutations, and possibly close and reopen the directory any
number of times. -/
inductive Reachable : State → Prop where
  | init : Reachable (openStore [])
  | step (s s' : State) (op : Op) :
      Reachable s → applyOp s op = .ok s' → Reachable s'
  | reopen (s : State) : Reachable s → Reachable (openStore s.disk)

/-- The state after running `ops`, with failed runs mapped to the start
state (used only to name concrete states in closed statements). -/
def stateAfter (s : State) (ops : List Op) : State :=
  match run s ops with
  | .ok s' => s'
  | .error _ => s

/-- The state produced by one compaction, with failures mapped back to
the input state (used only to name concrete states in closed
statements). -/
def compactResult (fail : Nat → Bool) (s : State) : State :=
  match compact fail s with
  | .ok s' => s'
  | .error _ => s

/-- A concrete store state with one stale populated segment (generation
1) beside the active empty segment (generation 2), as left behind by a
prior session; input for the unlink-failure observation. -/
def unlinkDemoState : State :=
  { disk := [(1, [Command.Set "a" "x"]), (2, [])],
    index := [("a", ⟨1, 0, 31⟩)],
    curGen := 2, uncompacted := 0, safePoint := 0, cache := [] }

/-! ### Basic lemmas: record lengths and bounded reads -/

theorem encLen_pos (c : Command) : 0 < encLen c := by
  cases c <;> simp [encLen]

theorem segLen_nil : segLen [] = 0 := rfl

theorem segLen_cons (c : Command) (xs : List Command) :
    segLen (c :: xs) = encLen c + segLen xs := by
  simp [segLen]

theorem segLen_append (xs ys : List Command) :
    segLen (xs ++ ys) = segLen xs + segLen ys := by
  simp [segLen]

theorem readAt_cons (x : Command) (rest : List Command) (p l : Nat) :
    readAt (x :: rest) p l =
      if p = 0 then (if l = encLen x then some x else none)
      else if p < encLen x then none
      else readAt rest (p - encLen x) l := rfl

theorem readAt_some_encLen :
    ∀ (seg : List Command) (p l : Nat) (c : Command),
      readAt seg p l = some c → l = encLen c := by
  intro seg
  induction seg with
  | nil => intro p l c h; simp [readAt] at h
  | cons x rest ih =>
    intro p l c h
    rw [readAt_cons] at h
    by_cases hp : p = 0
    · rw [if_pos hp] at h
      by_cases hl : l = encLen x
      · rw [if_pos hl] at h
        cases h
        exact hl
      · rw [if_neg hl] at h
        cases h
    · rw [if_neg hp] at h
      by_cases hlt : p < encLen x
      · rw [if_pos hlt] at h
        cases h
      · rw [if_neg hlt] at h
        exact ih _ _ _ h

theorem readAt_append_of_some :
    ∀ (xs ys : List Command) (p l : Nat) (c : Command),
      readAt xs p l = some c → readAt (xs ++ ys) p l = some c := by
  intro xs
  induction xs with
  | nil => intro ys p l c h; simp [readAt] at h
  | cons x rest ih =>
    intro ys p l c h
    rw [readAt_cons] at h
    rw [List.cons_append, readAt_cons]
    by_cases hp : p = 0
    · rw [if_pos hp] at h ⊢
      by_cases hl : l = encLen x
      · rw [if_pos hl] at h ⊢
        exact h
      · rw [if_neg hl] at h
        cases h
    · rw [if_neg hp] at h ⊢
      by_cases hlt : p < encLen x
      · rw [if_pos hlt] at h
        cases h
      · rw [if_neg hlt] at h ⊢
        exact ih _ _ _ _ h

theorem readAt_cons_shift (c : Command) (rest : List Command) (p l : Nat) :
    readAt (c :: rest) (encLen c + p) l = readAt rest p l := by
  have hpos := encLen_pos c
  rw [readAt_cons, if_neg (by omega), if_neg (by omega)]
  have harith : encLen c + p - encLen c = p := by omega
  rw [harith]

theorem readAt_snoc_self :
    ∀ (xs : List Command) (c : Command),
      readAt (xs ++ [c]) (segLen xs) (encLen c) = some c := by
  intro xs
  induction xs with
  | nil => intro c; simp [readAt, segLen]
  | cons x rest ih =>
    intro c
    rw [segLen_cons, List.cons_append, readAt_cons_shift]
    exact ih c

/-! ### Basic lemmas: index point operations -/

theorem idxGet_cons (k qk : String) (qv : CommandPos) (rest : Index) :
    idxGet k ((qk, qv) :: rest) =
      if qk = k then some qv else idxGet k rest := rfl

theorem idxInsert_cons (k qk : String) (cp qv : CommandPos) (rest : Index) :
    idxInsert k cp ((qk, qv) :: rest) =
      if qk = k then (k, cp) :: rest else (qk, qv) :: idxInsert k cp rest := rfl

theorem idxRemove_cons (k qk : String) (qv : CommandPos) (rest : Index) :
    idxRemove k ((qk, qv) :: rest) =
      if qk = k then rest else (qk, qv) :: idxRemove k rest := rfl

theorem idxGet_insert_self (k : String) (cp : CommandPos) :
    ∀ idx : Index, idxGet k (idxInsert k cp idx) = some cp := by
  intro idx
  induction idx with
  | nil => simp [idxInsert, idxGet]
  | cons q rest ih =>
    obtain ⟨qk, qv⟩ := q
    by_cases h : qk = k
    · rw [idxInsert_cons, if_pos h, idxGet_cons, if_pos rfl]
    · rw [idxInsert_cons, if_neg h, idxGet_cons, if_neg h]
      exact ih

theorem idxGet_insert_ne (k k' : String) (cp : CommandPos) (hne : k' ≠ k) :
    ∀ idx : Index, idxGet k (idxInsert k' cp idx) = idxGet k idx := by
  intro idx
  induction idx with
  | nil => simp [idxInsert, idxGet, hne]
  | cons q rest ih =>
    obtain ⟨qk, qv⟩ := q
    by_cases h : qk = k'
    · rw [idxInsert_cons, if_pos h, idxGet_cons, if_neg hne,
        idxGet_cons, if_neg (h ▸ hne)]
    · rw [idxInsert_cons, if_neg h, idxGet_cons, idxGet_cons]
      by_cases h2 : qk = k
      · rw [if_pos h2, if_pos h2]
      · rw [if_neg h2, if_neg h2]
        exact ih

theorem idxGet_remove_ne (k k' : String) (hne : k' ≠ k) :
    ∀ idx : Index, idxGet k (idxRemove k' idx) = idxGet k idx := by
  intro idx
  induction idx with
  | nil => simp [idxRemove, idxGet]
  | cons q rest ih =>
    obtain ⟨qk, qv⟩ := q
    by_cases h : qk = k'
    · rw [idxRemove_cons, if_pos h, idxGet_cons, if_neg (fun he => hne (h ▸ he))]
    · rw [idxRemove_cons, if_neg h, idxGet_cons, idxGet_cons]
      by_cases h2 : qk = k
      · rw [if_pos h2, if_pos h2]
      · rw [if_neg h2, if_neg h2]
        exact ih

theorem mem_idxInsert (q : String × CommandPos) (k : String) (cp : CommandPos) :
    ∀ idx : Index, q ∈ idxInsert k cp idx → q = (k, cp) ∨ q ∈ idx := by
  intro idx
  induction idx with
  | nil => intro h; simpa [idxInsert] using h
  | cons r rest ih =>
    obtain ⟨rk, rv⟩ := r
    intro h
    by_cases hr : rk = k
    · rw [idxInsert_cons, if_pos hr, List.mem_cons] at h
      rcases h with h | h
      · exact Or.inl h
      · exact Or.inr (List.mem_cons_of_mem _ h)
    · rw [idxInsert_cons, if_neg hr, List.mem_cons] at h
      rcases h with h | h
      · exact Or.inr (h ▸ List.mem_cons_self _ _)
      · rcases ih h with h' | h'
        · exact Or.inl h'
        · exact Or.inr (List.mem_cons_of_mem _ h')

theorem mem_idxRemove (q : String × CommandPos) (k : String) :
    ∀ idx : Index, q ∈ idxRemove k idx → q ∈ idx := by
  intro idx
  induction idx with
  | nil => intro h; simpa [idxRemove] using h
  | cons r rest ih =>
    obtain ⟨rk, rv⟩ := r
    intro h
    by_cases hr : rk = k
    · rw [idxRemove_cons, if_pos hr] at h
      exact List.mem_cons_of_mem _ h
    · rw [idxRemove_cons, if_neg hr, List.mem_cons] at h
      rcases h with h | h
      · exact h ▸ List.mem_cons_self _ _
      · exact List.mem_cons_of_mem _ (ih h)

theorem idxGet_mem (k : String) (cp : CommandPos) :
    ∀ idx : Index, idxGet k idx = some cp → (k, cp) ∈ idx := by
  intro idx
  induction idx with
  | nil => intro h; simp [idxGet] at h
  | cons q rest ih =>
    obtain ⟨qk, qv⟩ := q
    intro h
    by_cases hq : qk = k
    · rw [idxGet_cons, if_pos hq] at h
      cases h
      exact hq ▸ List.mem_cons_self _ _
    · rw [idxGet_cons, if_neg hq] at h
      exact List.mem_cons_of_mem _ (ih h)

theorem idxGet_eq_none_iff (k : String) :
    ∀ idx : Index, idxGet k idx = none ↔ k ∉ idx.map Prod.fst := by
  intro idx
  induction idx with
  | nil => simp [idxGet]
  | cons q rest ih =>
    obtain ⟨qk, qv⟩ := q
    by_cases hq : qk = k
    · simp [idxGet_cons, hq]
    · rw [idxGet_cons, if_neg hq, List.map_cons, List.mem_cons, ih]
      constructor
      · intro h hin
        rcases hin with h2 | h2
        · exact hq h2.symm
        · exact h h2
      · intro h
        exact fun h2 => h (Or.inr h2)

theorem idxGet_of_mem_nodup (k : String) (cp : CommandPos) :
    ∀ idx : Index, (idx.map Prod.fst).Nodup → (k, cp) ∈ idx →
      idxGet k idx = some cp := by
  intro idx
  induction idx with
  | nil => intro _ h; simp at h
  | cons q rest ih =>
    obtain ⟨qk, qv⟩ := q
    intro hnd hmem
    have hnd' : qk ∉ rest.map Prod.fst ∧ (rest.map Prod.fst).Nodup := by
      rw [List.map_cons, List.nodup_cons] at hnd
      exact hnd
    rcases List.mem_cons.mp hmem with h | h
    · cases h
      rw [idxGet_cons, if_pos rfl]
    · have hk : k ∈ rest.map Prod.fst := List.mem_map_of_mem Prod.fst h
      have hq : qk ≠ k := fun he => hnd'.1 (he ▸ hk)
      rw [idxGet_cons, if_neg hq]
      exact ih hnd'.2 h

theorem idxInsert_fresh (k : String) (cp : CommandPos) :
    ∀ idx : Index, k ∉ idx.map Prod.fst → idxInsert k cp idx = idx ++ [(k, cp)] := by
  intro idx
  induction idx with
  | nil => intro _; simp [idxInsert]
  | cons q rest ih =>
    obtain ⟨qk, qv⟩ := q
    intro h
    have hq : qk ≠ k := fun he => h (by simp [he])
    rw [idxInsert_cons, if_neg hq, List.cons_append]
    rw [ih (fun hc => h (by rw [List.map_cons]; exact List.mem_cons_of_mem _ hc))]

theorem keys_idxInsert_nodup (k : String) (cp : CommandPos) :
    ∀ idx : Index, (idx.map Prod.fst).Nodup →
      ((idxInsert k cp idx).map Prod.fst).Nodup := by
  intro idx
  induction idx with
  | nil => intro _; simp [idxInsert]
  | cons q rest ih =>
    obtain ⟨qk, qv⟩ := q
    intro hnd
    have hnd' : qk ∉ rest.map Prod.fst ∧ (rest.map Prod.fst).Nodup := by
      rw [List.map_cons, List.nodup_cons] at hnd
      exact hnd
    by_cases hq : qk = k
    · rw [idxInsert_cons, if_pos hq, List.map_cons, List.nodup_cons]
      exact ⟨hq ▸ hnd'.1, hnd'.2⟩
    · rw [idxInsert_cons, if_neg hq, List.map_cons, List.nodup_cons]
      constructor
      · intro hmem
        rcases List.mem_map.mp hmem with ⟨r, hr, hfst⟩
        have hfst' : r.1 = qk := hfst
        rcases mem_idxInsert r k cp rest hr with h | h
        · exact hq (by rw [← hfst', h])
        · exact hnd'.1 (hfst' ▸ List.mem_map_of_mem Prod.fst h)
      · exact ih hnd'.2

theorem keys_idxRemove_nodup (k : String) :
    ∀ idx : Index, (idx.map Prod.fst).Nodup →
      ((idxRemove k idx).map Prod.fst).Nodup := by
  intro idx
  induction idx with
  | nil => intro _; simp [idxRemove]
  | cons q rest ih =>
    obtain ⟨qk, qv⟩ := q
    intro hnd
    have hnd' : qk ∉ rest.map Prod.fst ∧ (rest.map Prod.fst).Nodup := by
      rw [List.map_cons, List.nodup_cons] at hnd
      exact hnd
    by_cases hq : qk = k
    · rw [idxRemove_cons, if_pos hq]
      exact hnd'.2
    · rw [idxRemove_cons, if_neg hq, List.map_cons, List.nodup_cons]
      constructor
      · intro hmem
        rcases List.mem_map.mp hmem with ⟨r, hr, hfst⟩
        have hfst' : r.1 = qk := hfst
        exact hnd'.1 (hfst' ▸ List.mem_map_of_mem Prod.fst (mem_idxRemove r k rest hr))
      · exact ih hnd'.2

/-! ### Basic lemmas: the store directory -/

theorem diskGet_cons (g g' : Nat) (seg : List Command) (rest : Disk) :
    diskGet ((g', seg) :: rest) g =
      if g' = g then some seg else diskGet rest g := rfl

theorem diskGet_append_left (d d' : Disk) (g : Nat) (seg : List Command)
    (h : diskGet d g = some seg) : diskGet (d ++ d') g = some seg := by
  induction d with
  | nil => simp [diskGet] at h
  | cons q rest ih =>
    obtain ⟨qg, qs⟩ := q
    rw [List.cons_append, diskGet_cons]
    rw [diskGet_cons] at h
    by_cases hq : qg = g
    · rwa [if_pos hq] at h ⊢
    · rw [if_neg hq] at h ⊢
      exact ih h

theorem diskGet_append_of_not_mem (d d' : Disk) (g : Nat)
    (h : g ∉ d.map Prod.fst) : diskGet (d ++ d') g = diskGet d' g := by
  induction d with
  | nil => simp
  | cons q rest ih =>
    obtain ⟨qg, qs⟩ := q
    have hq : qg ≠ g := fun he => h (by simp [he])
    rw [List.cons_append, diskGet_cons, if_neg hq]
    exact ih (fun hc => h (by rw [List.map_cons]; exact List.mem_cons_of_mem _ hc))

theorem diskGet_eq_none_iff (g : Nat) :
    ∀ d : Disk, diskGet d g = none ↔ g ∉ d.map Prod.fst := by
  intro d
  induction d with
  | nil => simp [diskGet]
  | cons q rest ih =>
    obtain ⟨qg, qs⟩ := q
    by_cases hq : qg = g
    · simp [diskGet_cons, hq]
    · rw [diskGet_cons, if_neg hq, List.map_cons, List.mem_cons, ih]
      constructor
      · intro h hin
        rcases hin with h2 | h2
        · exact hq h2.symm
        · exact h h2
      · intro h
        exact fun h2 => h (Or.inr h2)

theorem diskGet_snoc_self (d₀ : Disk) (g : Nat) (seg : List Command)
    (h : g ∉ d₀.map Prod.fst) : diskGet (d₀ ++ [(g, seg)]) g = some seg := by
  rw [diskGet_append_of_not_mem _ _ _ h, diskGet_cons, if_pos rfl]

theorem diskAppend_cons (g qg : Nat) (qs : List Command) (rest : Disk) (c : Command) :
    diskAppend ((qg, qs) :: rest) g c =
      (if qg = g then (qg, qs ++ [c]) else (qg, qs)) :: diskAppend rest g c := rfl

theorem diskAppend_map_fst (g : Nat) (c : Command) :
    ∀ d : Disk, (diskAppend d g c).map Prod.fst = d.map Prod.fst := by
  intro d
  induction d with
  | nil => rfl
  | cons q rest ih =>
    obtain ⟨qg, qs⟩ := q
    rw [diskAppend_cons]
    by_cases h : qg = g
    · rw [if_pos h, List.map_cons, List.map_cons, ih]
    · rw [if_neg h, List.map_cons, List.map_cons, ih]

theorem diskAppend_snoc (g : Nat) (seg : List Command) (c : Command) :
    ∀ d₀ : Disk, g ∉ d₀.map Prod.fst →
      diskAppend (d₀ ++ [(g, seg)]) g c = d₀ ++ [(g, seg ++ [c])] := by
  intro d₀
  induction d₀ with
  | nil => intro _; simp [diskAppend]
  | cons q rest ih =>
    obtain ⟨qg, qs⟩ := q
    intro h
    have hq : qg ≠ g := fun he => h (by simp [he])
    rw [List.cons_append, diskAppend_cons, if_neg hq, List.cons_append,
      ih (fun hc => h (by rw [List.map_cons]; exact List.mem_cons_of_mem _ hc))]

theorem diskGet_diskAppend_ne (g g' : Nat) (c : Command)
    (hne : g' ≠ g) : ∀ d : Disk, diskGet (diskAppend d g c) g' = diskGet d g' := by
  intro d
  induction d with
  | nil => rfl
  | cons q rest ih =>
    obtain ⟨qg, qs⟩ := q
    rw [diskAppend_cons]
    by_cases hq : qg = g
    · have hq' : qg ≠ g' := fun he => hne (he ▸ hq)
      rw [if_pos hq, diskGet_cons, diskGet_cons, if_neg hq', if_neg hq']
      exact ih
    · rw [if_neg hq, diskGet_cons, diskGet_cons]
      by_cases hq2 : qg = g'
      · rw [if_pos hq2, if_pos hq2]
      · rw [if_neg hq2, if_neg hq2]
        exact ih

theorem diskCreate_of_none (d : Disk) (g : Nat) (h : diskGet d g = none) :
    diskCreate d g = d ++ [(g, [])] := by
  unfold diskCreate
  rw [h]
  rfl

theorem diskGet_diskCreate_of_some (d : Disk) (g g' : Nat) (seg : List Command)
    (h : diskGet d g = some seg) : diskGet (diskCreate d g') g = some seg := by
  unfold diskCreate
  by_cases h2 : (diskGet d g').isSome
  · rw [if_pos h2]
    exact h
  · rw [if_neg h2]
    exact diskGet_append_left _ _ _ _ h

theorem diskWrite_cons (g qg : Nat) (qs : List Command) (rest : Disk) (cs : List Command) :
    diskWrite ((qg, qs) :: rest) g cs =
      (if qg = g then (qg, qs ++ cs) else (qg, qs)) :: diskWrite rest g cs := rfl

theorem diskWrite_of_not_mem (g : Nat) (cs : List Command) :
    ∀ d : Disk, g ∉ d.map Prod.fst → diskWrite d g cs = d := by
  intro d
  induction d with
  | nil => intro _; rfl
  | cons q rest ih =>
    obtain ⟨qg, qs⟩ := q
    intro h
    have hq : qg ≠ g := fun he => h (by simp [he])
    rw [diskWrite_cons, if_neg hq,
      ih (fun hc => h (by rw [List.map_cons]; exact List.mem_cons_of_mem _ hc))]

theorem diskWrite_append (g : Nat) (cs : List Command) :
    ∀ a b : Disk, diskWrite (a ++ b) g cs = diskWrite a g cs ++ diskWrite b g cs := by
  intro a
  induction a with
  | nil => intro b; rfl
  | cons q rest ih =>
    obtain ⟨qg, qs⟩ := q
    intro b
    rw [List.cons_append, diskWrite_cons, diskWrite_cons, List.cons_append, ih]

theorem diskErase_cons (g qg : Nat) (qs : List Command) (rest : Disk) :
    diskErase ((qg, qs) :: rest) g =
      if qg = g then diskErase rest g else (qg, qs) :: diskErase rest g := rfl

theorem diskErase_of_not_mem (g : Nat) :
    ∀ d : Disk, g ∉ d.map Prod.fst → diskErase d g = d := by
  intro d
  induction d with
  | nil => intro _; rfl
  | cons q rest ih =>
    obtain ⟨qg, qs⟩ := q
    intro h
    have hq : qg ≠ g := fun he => h (by simp [he])
    rw [diskErase_cons, if_neg hq,
      ih (fun hc => h (by rw [List.map_cons]; exact List.mem_cons_of_mem _ hc))]

theorem diskErase_append (g : Nat) :
    ∀ a b : Disk, diskErase (a ++ b) g = diskErase a g ++ diskErase b g := by
  intro a
  induction a with
  | nil => intro b; rfl
  | cons q rest ih =>
    obtain ⟨qg, qs⟩ := q
    intro b
    rw [List.cons_append, diskErase_cons, diskErase_cons]
    by_cases h : qg = g
    · rw [if_pos h, if_pos h, ih]
    · rw [if_neg h, if_neg h, List.cons_append, ih]

theorem foldl_diskErase (rest : Disk) :
    ∀ d₀ : Disk, (d₀.map Prod.fst).Nodup →
      (∀ g ∈ d₀.map Prod.fst, g ∉ rest.map Prod.fst) →
      (d₀.map Prod.fst).foldl (fun dd g => diskErase dd g) (d₀ ++ rest) = rest := by
  intro d₀
  induction d₀ with
  | nil => intro _ _; rfl
  | cons q d₀' ih =>
    obtain ⟨g, seg⟩ := q
    intro hnd hdisj
    have hnd' : g ∉ d₀'.map Prod.fst ∧ (d₀'.map Prod.fst).Nodup := by
      rw [List.map_cons, List.nodup_cons] at hnd
      exact hnd
    rw [List.map_cons, List.foldl_cons, List.cons_append, diskErase_cons, if_pos rfl,
      diskErase_append, diskErase_of_not_mem _ _ hnd'.1,
      diskErase_of_not_mem _ _ (hdisj g (by simp))]
    exact ih hnd'.2
      (fun g' hg' => hdisj g' (by rw [List.map_cons]; exact List.mem_cons_of_mem _ hg'))

/-! ### Basic lemmas: sorting and generation order -/

/-- Strictly ascending generation order of the directory listing. -/
def DiskSorted (d : Disk) : Prop := List.Pairwise (fun a b => a.1 < b.1) d

theorem insertGen_front (p : Nat × List Command) :
    ∀ d : Disk, (∀ q ∈ d, p.1 < q.1) → insertGen p d = p :: d := by
  intro d h
  cases d with
  | nil => rfl
  | cons q rest =>
    unfold insertGen
    rw [if_pos (Nat.le_of_lt (h q (by simp)))]

theorem sortByGen_eq_self : ∀ d : Disk, DiskSorted d → sortByGen d = d := by
  intro d
  induction d with
  | nil => intro _; rfl
  | cons p rest ih =>
    intro hs
    have hs' := List.pairwise_cons.mp hs
    unfold sortByGen
    rw [ih hs'.2, insertGen_front p rest hs'.1]

theorem diskSorted_keys_nodup (d : Disk) (h : DiskSorted d) :
    (d.map Prod.fst).Nodup := by
  have : (d.map Prod.fst).Pairwise (· < ·) := List.Pairwise.map _ (fun _ _ hx => hx) h
  exact this.imp Nat.ne_of_lt

theorem diskSorted_snoc_lt (d₀ : Disk) (g : Nat) (seg : List Command)
    (h : DiskSorted (d₀ ++ [(g, seg)])) : ∀ q ∈ d₀, q.1 < g := by
  have := (List.pairwise_append.mp h).2.2
  intro q hq
  exact this q hq (g, seg) (by simp)

theorem diskSorted_snoc_not_mem (d₀ : Disk) (g : Nat) (seg : List Command)
    (h : DiskSorted (d₀ ++ [(g, seg)])) : g ∉ d₀.map Prod.fst := by
  intro hmem
  rcases List.mem_map.mp hmem with ⟨q, hq, hfst⟩
  exact absurd (hfst ▸ diskSorted_snoc_lt d₀ g seg h q hq) (lt_irrefl g)

/-! ### Basic lemmas: segment replay -/

theorem loadSeg_set_cons (g : Nat) (k v : String) (rest : List Command)
    (pos : Nat) (idx : Index) (unc : Nat) :
    loadSeg g (Command.Set k v :: rest) pos idx unc =
      loadSeg g rest (pos + encLen (Command.Set k v))
        (idxInsert k ⟨g, pos, encLen (Command.Set k v)⟩ idx)
        (unc + (match idxGet k idx with | some old => old.len | none => 0)) := rfl

theorem loadSeg_remove_cons (g : Nat) (k : String) (rest : List Command)
    (pos : Nat) (idx : Index) (unc : Nat) :
    loadSeg g (Command.Remove k :: rest) pos idx unc =
      loadSeg g rest (pos + encLen (Command.Remove k))
        (idxRemove k idx)
        (unc + (match idxGet k idx with | some old => old.len | none => 0)
             + encLen (Command.Remove k)) := rfl

theorem loadSeg_append (g : Nat) :
    ∀ (xs ys : List Command) (pos : Nat) (idx : Index) (unc : Nat),
      loadSeg g (xs ++ ys) pos idx unc =
        loadSeg g ys (pos + segLen xs)
          (loadSeg g xs pos idx unc).1 (loadSeg g xs pos idx unc).2 := by
  intro xs
  induction xs with
  | nil =>
    intro ys pos idx unc
    simp [loadSeg, segLen]
  | cons c rest ih =>
    intro ys pos idx unc
    cases c with
    | Set k v =>
      rw [List.cons_append, loadSeg_set_cons, loadSeg_set_cons, ih, segLen_cons]
      have : pos + (encLen (Command.Set k v) + segLen rest)
          = pos + encLen (Command.Set k v) + segLen rest := by omega
      rw [this]
    | Remove k =>
      rw [List.cons_append, loadSeg_remove_cons, loadSeg_remove_cons, ih, segLen_cons]
      have : pos + (encLen (Command.Remove k) + segLen rest)
          = pos + encLen (Command.Remove k) + segLen rest := by omega
      rw [this]

theorem loadDisk_snoc (d₀ : Disk) (g : Nat) (seg : List Command) :
    loadDisk (d₀ ++ [(g, seg)]) =
      loadSeg g seg 0 (loadDisk d₀).1 (loadDisk d₀).2 := by
  unfold loadDisk
  rw [List.foldl_append]
  rfl

/-! ### The state invariant -/

/-- An index entry points at a decodable `Set` record for its own key
(invariant I1, minus the "most recently assigned" clause, which is
carried by the replay equation below). -/
def ValidEntry (d : Disk) (p : String × CommandPos) : Prop :=
  ∃ v, readCommandD d p.2 = .ok (.Set p.1 v)

/-- Invariant of every store state reachable through the public API:
the directory listing is strictly ascending in generation, the active
writer's generation is the last one on disk, replaying the directory
rebuilds exactly the in-memory index, index keys are unique, and every
index entry decodes to a `Set` record for its key. -/
def INV (s : State) : Prop :=
  DiskSorted s.disk ∧
  (∃ d₀ seg, s.disk = d₀ ++ [(s.curGen, seg)]) ∧
  (loadDisk s.disk).1 = s.index ∧
  (s.index.map Prod.fst).Nodup ∧
  ∀ p ∈ s.index, ValidEntry s.disk p

theorem readCommandD_ok_elim (d : Disk) (cp : CommandPos) (c : Command)
    (h : readCommandD d cp = .ok c) :
    ∃ seg, diskGet d cp.gen = some seg ∧ readAt seg cp.pos cp.len = some c := by
  cases hd : diskGet d cp.gen with
  | none => simp [readCommandD, hd] at h
  | some seg =>
    cases hr : readAt seg cp.pos cp.len with
    | none => simp [readCommandD, hd, hr] at h
    | some c' =>
      have hc : c' = c := by
        simpa [readCommandD, hd, hr] using h
      exact ⟨seg, rfl, hc ▸ hr⟩

theorem readCommandD_ok_len (d : Disk) (cp : CommandPos) (c : Command)
    (h : readCommandD d cp = .ok c) : cp.len = encLen c := by
  rcases readCommandD_ok_elim d cp c h with ⟨seg, _, hr⟩
  exact readAt_some_encLen seg cp.pos cp.len c hr

/-- Master lemma on the compaction copy loop: when every entry decodes
to a `Set` record for its key, the loop succeeds, keeps the key list,
and rewrites each entry to an offset inside the records it wrote, at
which the very same record can be read back. -/
theorem compactEntries_spec (d : Disk) (cgen : Nat) :
    ∀ (entries : Index) (pos : Nat),
      (∀ p ∈ entries, ValidEntry d p) →
      ∃ ni recs, compactEntries d cgen entries pos = .ok (ni, recs) ∧
        ni.map Prod.fst = entries.map Prod.fst ∧
        (∀ k, idxGet k entries = none → idxGet k ni = none) ∧
        (∀ k cp, idxGet k entries = some cp →
          ∃ off v, idxGet k ni = some ⟨cgen, off, cp.len⟩ ∧ pos ≤ off ∧
            readAt recs (off - pos) cp.len = some (Command.Set k v) ∧
            readCommandD d cp = .ok (Command.Set k v)) := by
  intro entries
  induction entries with
  | nil =>
    intro pos _
    refine ⟨[], [], rfl, rfl, fun k _ => rfl, fun k cp h => ?_⟩
    simp [idxGet] at h
  | cons p rest ih =>
    obtain ⟨k0, cp0⟩ := p
    intro pos hvalid
    rcases hvalid (k0, cp0) (by simp) with ⟨v0, hv0⟩
    have hlen0 : cp0.len = encLen (Command.Set k0 v0) := readCommandD_ok_len _ _ _ hv0
    rcases ih (pos + cp0.len) (fun p hp => hvalid p (List.mem_cons_of_mem _ hp))
      with ⟨ni', recs', hok', hkeys', hnone', hsome'⟩
    refine ⟨(k0, ⟨cgen, pos, cp0.len⟩) :: ni', Command.Set k0 v0 :: recs', ?_, ?_, ?_, ?_⟩
    · show compactEntries d cgen ((k0, cp0) :: rest) pos = _
      unfold compactEntries
      rw [hv0, hok']
    · rw [List.map_cons, List.map_cons, hkeys']
    · intro k hk
      rw [idxGet_cons] at hk ⊢
      by_cases h0 : k0 = k
      · rw [if_pos h0] at hk
        cases hk
      · rw [if_neg h0] at hk ⊢
        exact hnone' k hk
    · intro k cp hk
      rw [idxGet_cons] at hk
      by_cases h0 : k0 = k
      · rw [if_pos h0] at hk
        cases hk
        refine ⟨pos, v0, ?_, Nat.le_refl pos, ?_, h0 ▸ hv0⟩
        · rw [idxGet_cons, if_pos h0]
        · have : pos - pos = 0 := by omega
          rw [this, readAt_cons, if_pos rfl, if_pos (h0 ▸ hlen0)]
          rw [h0]
      · rw [if_neg h0] at hk
        rcases hsome' k cp hk with ⟨off, v, hni, hle, hread, hcmd⟩
        refine ⟨off, v, ?_, by omega, ?_, hcmd⟩
        · rw [idxGet_cons, if_neg h0]
          exact hni
        · have hsplit : off - pos = encLen (Command.Set k0 v0) + (off - (pos + cp0.len)) := by
            rw [← hlen0]
            omega
          rw [hsplit, readAt_cons_shift]
          exact hread

/-- Replaying the compaction segment rebuilds exactly the rewritten
index: the records are `Set`s with pairwise distinct keys, so replay is
a sequence of fresh inserts (and contributes no dead bytes). -/
theorem compactEntries_replay (d : Disk) (cgen : Nat) :
    ∀ (entries : Index) (pos : Nat) (ni : Index) (recs : List Command),
      compactEntries d cgen entries pos = .ok (ni, recs) →
      (∀ p ∈ entries, ValidEntry d p) →
      (entries.map Prod.fst).Nodup →
      ∀ (idx0 : Index) (unc0 : Nat),
        (∀ k ∈ entries.map Prod.fst, k ∉ idx0.map Prod.fst) →
        loadSeg cgen recs pos idx0 unc0 = (idx0 ++ ni, unc0) := by
  intro entries
  induction entries with
  | nil =>
    intro pos ni recs hok _ _ idx0 unc0 _
    cases hok
    simp [loadSeg]
  | cons p rest ih =>
    obtain ⟨k0, cp0⟩ := p
    intro pos ni recs hok hvalid hnd idx0 unc0 hdisj
    rcases hvalid (k0, cp0) (by simp) with ⟨v0, hv0⟩
    have hlen0 : cp0.len = encLen (Command.Set k0 v0) := readCommandD_ok_len _ _ _ hv0
    have hnd' : k0 ∉ rest.map Prod.fst ∧ (rest.map Prod.fst).Nodup := by
      rw [List.map_cons, List.nodup_cons] at hnd
      exact hnd
    unfold compactEntries at hok
    rw [hv0] at hok
    cases hok' : compactEntries d cgen rest (pos + cp0.len) with
    | error e => rw [hok'] at hok; cases hok
    | ok pr =>
      obtain ⟨ni', recs'⟩ := pr
      rw [hok'] at hok
      cases hok
      have hfresh : k0 ∉ idx0.map Prod.fst := hdisj k0 (by simp)
      rw [loadSeg_set_cons]
      have hg : idxGet k0 idx0 = none := (idxGet_eq_none_iff k0 idx0).mpr hfresh
      rw [hg]
      rw [idxInsert_fresh _ _ _ hfresh]
      have harg : pos + encLen (Command.Set k0 v0) = pos + cp0.len := by rw [hlen0]
      rw [harg]
      have hlenrw : (⟨cgen, pos, encLen (Command.Set k0 v0)⟩ : CommandPos)
          = ⟨cgen, pos, cp0.len⟩ := by rw [hlen0]
      rw [hlenrw]
      have := ih (pos + cp0.len) ni' recs' hok'
        (fun p hp => hvalid p (List.mem_cons_of_mem _ hp)) hnd'.2
        (idx0 ++ [(k0, ⟨cgen, pos, cp0.len⟩)]) (unc0 + 0)
        (by
          intro k hk
          rw [List.map_append, List.mem_append]
          rintro (h | h)
          · exact hdisj k (by rw [List.map_cons]; exact List.mem_cons_of_mem _ hk) h
          · have : k = k0 := by simpa using h
            exact hnd'.1 (this ▸ hk))
      rw [this]
      rw [List.append_assoc]
      rfl

/-! ### Helper lemmas for invariant preservation -/

theorem diskGet_some_mem (d : Disk) (g : Nat) (seg : List Command)
    (h : diskGet d g = some seg) : g ∈ d.map Prod.fst := by
  by_contra hmem
  rw [(diskGet_eq_none_iff g d).mpr hmem] at h
  cases h

theorem diskSeg_snoc (d₀ : Disk) (g : Nat) (seg : List Command)
    (h : g ∉ d₀.map Prod.fst) : diskSeg (d₀ ++ [(g, seg)]) g = seg := by
  unfold diskSeg
  rw [diskGet_snoc_self d₀ g seg h]
  rfl

theorem readCommandD_intro (d : Disk) (cp : CommandPos) (seg : List Command)
    (c : Command) (hd : diskGet d cp.gen = some seg)
    (hr : readAt seg cp.pos cp.len = some c) : readCommandD d cp = .ok c := by
  simp [readCommandD, hd, hr]

theorem readCommandD_append (d rest : Disk) (cp : CommandPos) (c : Command)
    (h : readCommandD d cp = .ok c) : readCommandD (d ++ rest) cp = .ok c := by
  rcases readCommandD_ok_elim d cp c h with ⟨seg, hd, hr⟩
  exact readCommandD_intro _ _ _ _ (diskGet_append_left _ _ _ _ hd) hr

theorem diskGet_diskAppend_self (g : Nat) (c : Command) :
    ∀ (d : Disk) (seg : List Command), diskGet d g = some seg →
      diskGet (diskAppend d g c) g = some (seg ++ [c]) := by
  intro d
  induction d with
  | nil => intro seg h; cases h
  | cons q rest ih =>
    obtain ⟨qg, qs⟩ := q
    intro seg h
    rw [diskGet_cons] at h
    rw [diskAppend_cons]
    by_cases hq : qg = g
    · rw [if_pos hq] at h
      cases h
      rw [if_pos hq, diskGet_cons, if_pos hq]
    · rw [if_neg hq] at h
      rw [if_neg hq, diskGet_cons, if_neg hq]
      exact ih seg h

theorem readCommandD_diskAppend (d : Disk) (g : Nat) (cmd : Command)
    (cp : CommandPos) (c : Command) (h : readCommandD d cp = .ok c) :
    readCommandD (diskAppend d g cmd) cp = .ok c := by
  rcases readCommandD_ok_elim d cp c h with ⟨seg, hd, hr⟩
  by_cases hg : cp.gen = g
  · have hd' : diskGet (diskAppend d g cmd) cp.gen = some (seg ++ [cmd]) := by
      rw [hg]
      exact diskGet_diskAppend_self g cmd d seg (hg ▸ hd)
    exact readCommandD_intro _ _ _ _ hd' (readAt_append_of_some _ _ _ _ _ hr)
  · exact readCommandD_intro _ _ _ _
      ((diskGet_diskAppend_ne g cp.gen cmd hg d) ▸ hd) hr

theorem readCommandD_diskCreate (d : Disk) (g : Nat) (cp : CommandPos)
    (c : Command) (h : readCommandD d cp = .ok c) :
    readCommandD (diskCreate d g) cp = .ok c := by
  rcases readCommandD_ok_elim d cp c h with ⟨seg, hd, hr⟩
  exact readCommandD_intro _ _ _ _ (diskGet_diskCreate_of_some d cp.gen g seg hd) hr

theorem idxGet_remove_self_nodup (k : String) :
    ∀ idx : Index, (idx.map Prod.fst).Nodup →
      idxGet k (idxRemove k idx) = none := by
  intro idx
  induction idx with
  | nil => intro _; rfl
  | cons q rest ih =>
    obtain ⟨qk, qv⟩ := q
    intro hnd
    have hnd' : qk ∉ rest.map Prod.fst ∧ (rest.map Prod.fst).Nodup := by
      rw [List.map_cons, List.nodup_cons] at hnd
      exact hnd
    by_cases hq : qk = k
    · rw [idxRemove_cons, if_pos hq]
      rw [idxGet_eq_none_iff]
      exact hq ▸ hnd'.1
    · rw [idxRemove_cons, if_neg hq, idxGet_cons, if_neg hq]
      exact ih hnd'.2

theorem diskSorted_snoc_seg_irrel (d₀ : Disk) (g : Nat) (s1 s2 : List Command)
    (h : DiskSorted (d₀ ++ [(g, s1)])) : DiskSorted (d₀ ++ [(g, s2)]) := by
  rcases List.pairwise_append.mp h with ⟨h1, _, h3⟩
  apply List.pairwise_append.mpr
  refine ⟨h1, List.pairwise_singleton _ _, ?_⟩
  intro x hx y hy
  have hy' : y = (g, s2) := by simpa using hy
  have := h3 x hx (g, s1) (by simp)
  rw [hy']
  exact this

theorem diskGens_le (d₀ : Disk) (g : Nat) (seg : List Command)
    (h : DiskSorted (d₀ ++ [(g, seg)])) :
    ∀ g' ∈ (d₀ ++ [(g, seg)]).map Prod.fst, g' ≤ g := by
  intro g' hg'
  rw [List.map_append, List.mem_append] at hg'
  rcases hg' with hg' | hg'
  · rcases List.mem_map.mp hg' with ⟨q, hq, hfst⟩
    exact Nat.le_of_lt (hfst ▸ diskSorted_snoc_lt d₀ g seg h q hq)
  · have : g' = g := by simpa using hg'
    exact this ▸ Nat.le_refl g

theorem getOp_absent (s : State) (k : String) (h : idxGet k s.index = none) :
    getOp s k = .ok none := by
  simp [getOp, h]

theorem getOp_present (s : State) (k k1 v : String) (cp : CommandPos)
    (h1 : idxGet k s.index = some cp)
    (h2 : readCommandD s.disk cp = .ok (Command.Set k1 v)) :
    getOp s k = .ok (some v) := by
  simp [getOp, h1, h2]

/-! ### Invariant establishment and preservation -/

theorem INV_openStore_nil : INV (openStore []) := by
  refine ⟨?_, ⟨[], [], rfl⟩, rfl, List.nodup_nil, ?_⟩
  · exact List.pairwise_singleton _ _
  · intro p hp
    simp [openStore, diskCreate, loadDisk, sortByGen, lastGen, diskGet] at hp

theorem INV_setPre (s : State) (k v : String) (h : INV s) : INV (setPre s k v) := by
  obtain ⟨hsort, ⟨d₀, seg, hdec⟩, hreplay, hnd, hvalid⟩ := h
  have hsort0 : DiskSorted (d₀ ++ [(s.curGen, seg)]) := hdec ▸ hsort
  have hnm : s.curGen ∉ d₀.map Prod.fst := diskSorted_snoc_not_mem d₀ _ seg hsort0
  have hseg : diskSeg s.disk s.curGen = seg := by
    rw [hdec]
    exact diskSeg_snoc d₀ _ seg hnm
  have hdisk' : (setPre s k v).disk = d₀ ++ [(s.curGen, seg ++ [Command.Set k v])] := by
    show diskAppend s.disk s.curGen (Command.Set k v) = _
    rw [hdec]
    exact diskAppend_snoc _ seg _ d₀ hnm
  refine ⟨?_, ⟨d₀, seg ++ [Command.Set k v], hdisk'⟩, ?_, ?_, ?_⟩
  · rw [hdisk']
    exact diskSorted_snoc_seg_irrel d₀ _ seg _ hsort0
  · show (loadDisk (setPre s k v).disk).1 = _
    rw [hdisk', loadDisk_snoc, loadSeg_append, loadSeg_set_cons]
    show (loadSeg s.curGen []
        (0 + segLen seg + encLen (Command.Set k v)) _ _).1 = _
    rw [show (loadSeg s.curGen seg 0 (loadDisk d₀).1 (loadDisk d₀).2)
        = loadDisk s.disk by rw [hdec, loadDisk_snoc]]
    show idxInsert k ⟨s.curGen, 0 + segLen seg, encLen (Command.Set k v)⟩
        (loadDisk s.disk).1 = _
    rw [hreplay, Nat.zero_add, ← hseg]
    rfl
  · exact keys_idxInsert_nodup _ _ _ hnd
  · intro p hp
    rcases mem_idxInsert p k _ s.index hp with he | hmem
    · refine ⟨v, ?_⟩
      rw [he]
      apply readCommandD_intro _ _ (seg ++ [Command.Set k v])
      · show diskGet (setPre s k v).disk s.curGen = _
        rw [hdisk']
        exact diskGet_snoc_self d₀ _ _ hnm
      · show readAt (seg ++ [Command.Set k v])
          (segLen (diskSeg s.disk s.curGen)) (encLen (Command.Set k v)) = _
        rw [hseg]
        exact readAt_snoc_self seg _
    · rcases hvalid p hmem with ⟨v', hv'⟩
      exact ⟨v', readCommandD_diskAppend s.disk s.curGen _ p.2 _ hv'⟩

theorem INV_removePre (s : State) (k : String) (old : CommandPos) (h : INV s) :
    INV (removePre s k old) := by
  obtain ⟨hsort, ⟨d₀, seg, hdec⟩, hreplay, hnd, hvalid⟩ := h
  have hsort0 : DiskSorted (d₀ ++ [(s.curGen, seg)]) := hdec ▸ hsort
  have hnm : s.curGen ∉ d₀.map Prod.fst := diskSorted_snoc_not_mem d₀ _ seg hsort0
  have hdisk' : (removePre s k old).disk
      = d₀ ++ [(s.curGen, seg ++ [Command.Remove k])] := by
    show diskAppend s.disk s.curGen (Command.Remove k) = _
    rw [hdec]
    exact diskAppend_snoc _ seg _ d₀ hnm
  refine ⟨?_, ⟨d₀, seg ++ [Command.Remove k], hdisk'⟩, ?_, ?_, ?_⟩
  · rw [hdisk']
    exact diskSorted_snoc_seg_irrel d₀ _ seg _ hsort0
  · show (loadDisk (removePre s k old).disk).1 = _
    rw [hdisk', loadDisk_snoc, loadSeg_append, loadSeg_remove_cons]
    show (loadSeg s.curGen []
        (0 + segLen seg + encLen (Command.Remove k)) _ _).1 = _
    rw [show (loadSeg s.curGen seg 0 (loadDisk d₀).1 (loadDisk d₀).2)
        = loadDisk s.disk by rw [hdec, loadDisk_snoc]]
    show idxRemove k (loadDisk s.disk).1 = _
    rw [hreplay]
    rfl
  · exact keys_idxRemove_nodup _ _ hnd
  · intro p hp
    rcases hvalid p (mem_idxRemove p k s.index hp) with ⟨v', hv'⟩
    exact ⟨v', readCommandD_diskAppend s.disk s.curGen _ p.2 _ hv'⟩

theorem getOp_setPre_self (s : State) (k v : String) (h : INV s) :
    getOp (setPre s k v) k = .ok (some v) := by
  obtain ⟨hsort, ⟨d₀, seg, hdec⟩, hreplay, hnd, hvalid⟩ := h
  have hsort0 : DiskSorted (d₀ ++ [(s.curGen, seg)]) := hdec ▸ hsort
  have hnm : s.curGen ∉ d₀.map Prod.fst := diskSorted_snoc_not_mem d₀ _ seg hsort0
  have hseg : diskSeg s.disk s.curGen = seg := by
    rw [hdec]
    exact diskSeg_snoc d₀ _ seg hnm
  apply getOp_present _ _ k v ⟨s.curGen, segLen (diskSeg s.disk s.curGen),
    encLen (Command.Set k v)⟩
  · exact idxGet_insert_self k _ s.index
  · apply readCommandD_intro _ _ (seg ++ [Command.Set k v])
    · show diskGet (diskAppend s.disk s.curGen (Command.Set k v)) s.curGen = _
      rw [hdec, diskAppend_snoc _ seg _ d₀ hnm]
      exact diskGet_snoc_self d₀ _ _ hnm
    · show readAt (seg ++ [Command.Set k v])
        (segLen (diskSeg s.disk s.curGen)) (encLen (Command.Set k v)) = _
      rw [hseg]
      exact readAt_snoc_self seg _

theorem getOp_setPre_other (s : State) (k v k' : String) (h : INV s)
    (hne : k' ≠ k) : getOp (setPre s k v) k' = getOp s k' := by
  obtain ⟨hsort, hdec, hreplay, hnd, hvalid⟩ := h
  have hidx : idxGet k' (setPre s k v).index = idxGet k' s.index := by
    show idxGet k' (idxInsert k _ s.index) = _
    exact idxGet_insert_ne k' k _ (Ne.symm hne) s.index
  cases hget : idxGet k' s.index with
  | none => rw [getOp_absent _ _ (hidx.trans hget), getOp_absent _ _ hget]
  | some cp =>
    rcases hvalid (k', cp) (idxGet_mem k' cp s.index hget) with ⟨v', hv'⟩
    rw [getOp_present s k' k' v' cp hget hv',
      getOp_present (setPre s k v) k' k' v' cp (hidx.trans hget)
        (readCommandD_diskAppend s.disk s.curGen _ cp _ hv')]

theorem compact_eq_of_ok (fail : Nat → Bool) (s : State) (ni : Index)
    (recs : List Command)
    (hok : compactEntries (diskCreate (diskCreate s.disk (s.curGen + 1)) (s.curGen + 2))
      (s.curGen + 1) s.index 0 = .ok (ni, recs)) :
    compact fail s = .ok
      { disk := (((diskWrite (diskCreate (diskCreate s.disk (s.curGen + 1)) (s.curGen + 2))
            (s.curGen + 1) recs).map Prod.fst).filter
              (fun g => decide (g < s.curGen + 1))).foldl
            (fun dd g => if fail g then dd else diskErase dd g)
            (diskWrite (diskCreate (diskCreate s.disk (s.curGen + 1)) (s.curGen + 2))
              (s.curGen + 1) recs),
        index := ni, curGen := s.curGen + 2, uncompacted := 0,
        safePoint := s.curGen + 1,
        cache := s.cache.filter fun g => decide (s.curGen + 1 ≤ g) } := by
  unfold compact
  simp only []
  rw [hok]

/-- Compaction on an invariant state succeeds, re-establishes the
invariant, bumps the writer generation by two, zeroes the dead-byte
counter and preserves every `get` observation. -/
theorem compact_spec (s : State) (h : INV s) :
    ∃ s', compact (fun _ => false) s = .ok s' ∧ INV s' ∧
      s'.curGen = s.curGen + 2 ∧ s'.uncompacted = 0 ∧
      ∀ k, getOp s' k = getOp s k := by
  obtain ⟨hsort, ⟨d₀, seg, hdec⟩, hreplay, hnd, hvalid⟩ := h
  have hsort0 : DiskSorted (d₀ ++ [(s.curGen, seg)]) := hdec ▸ hsort
  have hle : ∀ g' ∈ s.disk.map Prod.fst, g' ≤ s.curGen := by
    rw [hdec]
    exact diskGens_le d₀ _ seg hsort0
  have hc_none : diskGet s.disk (s.curGen + 1) = none := by
    rw [diskGet_eq_none_iff]
    intro hmem
    have := hle _ hmem
    omega
  have hd1 : diskCreate s.disk (s.curGen + 1) = s.disk ++ [(s.curGen + 1, [])] :=
    diskCreate_of_none _ _ hc_none
  have hn_none : diskGet (s.disk ++ [(s.curGen + 1, [])]) (s.curGen + 2) = none := by
    rw [diskGet_eq_none_iff, List.map_append, List.mem_append]
    rintro (hmem | hmem)
    · have := hle _ hmem
      omega
    · have h12 : s.curGen + 2 = s.curGen + 1 := by simpa using hmem
      omega
  have hd2 : diskCreate (diskCreate s.disk (s.curGen + 1)) (s.curGen + 2)
      = s.disk ++ [(s.curGen + 1, []), (s.curGen + 2, [])] := by
    rw [hd1, diskCreate_of_none _ _ hn_none, List.append_assoc]
    rfl
  have hvalid2 : ∀ p ∈ s.index,
      ValidEntry (diskCreate (diskCreate s.disk (s.curGen + 1)) (s.curGen + 2)) p := by
    intro p hp
    rcases hvalid p hp with ⟨v, hv⟩
    exact ⟨v, readCommandD_diskCreate _ _ _ _ (readCommandD_diskCreate _ _ _ _ hv)⟩
  rcases compactEntries_spec _ (s.curGen + 1) s.index 0 hvalid2
    with ⟨ni, recs, hok, hkeys, hnone, hsome⟩
  have heq := compact_eq_of_ok (fun _ => false) s ni recs hok
  have hd3 : diskWrite (diskCreate (diskCreate s.disk (s.curGen + 1)) (s.curGen + 2))
      (s.curGen + 1) recs = s.disk ++ [(s.curGen + 1, recs), (s.curGen + 2, [])] := by
    rw [hd2, diskWrite_append,
      diskWrite_of_not_mem _ _ _ (fun hmem => by have := hle _ hmem; omega),
      diskWrite_cons, if_pos rfl, diskWrite_cons,
      if_neg (by omega : ¬ s.curGen + 2 = s.curGen + 1)]
    rfl
  have hstale : ((s.disk ++ [(s.curGen + 1, recs), (s.curGen + 2, [])]).map
      Prod.fst).filter (fun g => decide (g < s.curGen + 1)) = s.disk.map Prod.fst := by
    rw [List.map_append, List.filter_append]
    have h1 : (s.disk.map Prod.fst).filter (fun g => decide (g < s.curGen + 1))
        = s.disk.map Prod.fst := by
      apply List.filter_eq_self.mpr
      intro g hg
      have := hle g hg
      simpa using (by omega : g < s.curGen + 1)
    have h2 : ((([(s.curGen + 1, recs), (s.curGen + 2, [])]) : Disk).map
        Prod.fst).filter (fun g => decide (g < s.curGen + 1)) = [] := by
      simp
    rw [h1, h2, List.append_nil]
  have hfun : (fun (dd : Disk) (g : Nat) =>
      if (fun (_ : Nat) => false) g = true then dd else diskErase dd g)
      = fun dd g => diskErase dd g := by
    funext dd g
    simp
  have hdisj : ∀ g ∈ s.disk.map Prod.fst,
      g ∉ (([(s.curGen + 1, recs), (s.curGen + 2, [])] : Disk)).map Prod.fst := by
    intro g hg hmem
    have hb := hle g hg
    have hor : g = s.curGen + 1 ∨ g = s.curGen + 2 := by simpa using hmem
    rcases hor with h | h <;> omega
  have hfold : (s.disk.map Prod.fst).foldl (fun dd g => diskErase dd g)
      (s.disk ++ [(s.curGen + 1, recs), (s.curGen + 2, [])])
      = [(s.curGen + 1, recs), (s.curGen + 2, [])] :=
    foldl_diskErase _ s.disk (diskSorted_keys_nodup _ hsort) hdisj
  have hfinal : compact (fun _ => false) s = .ok
      { disk := [(s.curGen + 1, recs), (s.curGen + 2, [])],
        index := ni, curGen := s.curGen + 2, uncompacted := 0,
        safePoint := s.curGen + 1,
        cache := s.cache.filter fun g => decide (s.curGen + 1 ≤ g) } := by
    rw [heq, hd3, hstale, hfun, hfold]
  have hknodup : (ni.map Prod.fst).Nodup := hkeys.symm ▸ hnd
  have hreplayc := compactEntries_replay _ (s.curGen + 1) s.index 0 ni recs hok
    hvalid2 hnd [] 0 (by intro k _ hk; simp at hk)
  refine ⟨_, hfinal, ⟨?_, ⟨[(s.curGen + 1, recs)], [], rfl⟩, ?_, hknodup, ?_⟩,
    rfl, rfl, ?_⟩
  · constructor
    · intro y hy
      have hy' : y = (s.curGen + 2, ([] : List Command)) := by simpa using hy
      rw [hy']
      show s.curGen + 1 < s.curGen + 2
      omega
    · exact List.pairwise_singleton _ _
  · show (loadSeg (s.curGen + 2) [] 0
      (loadSeg (s.curGen + 1) recs 0 [] 0).1
      (loadSeg (s.curGen + 1) recs 0 [] 0).2).1 = ni
    rw [hreplayc]
    rfl
  · intro p hp
    obtain ⟨pk, pv⟩ := p
    have hpget : idxGet pk ni = some pv := idxGet_of_mem_nodup pk pv ni hknodup hp
    cases hsget : idxGet pk s.index with
    | none =>
      rw [hnone pk hsget] at hpget
      cases hpget
    | some cp =>
      rcases hsome pk cp hsget with ⟨off, v, hni, _, hread, hcmd⟩
      rw [hni] at hpget
      cases hpget
      rw [Nat.sub_zero] at hread
      refine ⟨v, readCommandD_intro _ _ recs _ ?_ hread⟩
      show diskGet [(s.curGen + 1, recs), (s.curGen + 2, [])] (s.curGen + 1)
        = some recs
      rw [diskGet_cons, if_pos rfl]
  · intro k
    cases hsget : idxGet k s.index with
    | none =>
      rw [getOp_absent s k hsget]
      exact getOp_absent _ k (hnone k hsget)
    | some cp =>
      rcases hvalid (k, cp) (idxGet_mem k cp s.index hsget) with ⟨v', hv'⟩
      rcases hsome k cp hsget with ⟨off, v, hni, _, hread, hcmd⟩
      have hv2 : readCommandD
          (diskCreate (diskCreate s.disk (s.curGen + 1)) (s.curGen + 2)) cp
          = .ok (Command.Set k v') :=
        readCommandD_diskCreate _ _ _ _ (readCommandD_diskCreate _ _ _ _ hv')
      rw [hcmd] at hv2
      injection hv2 with hv3
      injection hv3 with _ hv4
      rw [Nat.sub_zero] at hread
      rw [getOp_present s k k v' cp hsget hv', ← hv4]
      apply getOp_present _ k k v ⟨s.curGen + 1, off, cp.len⟩ hni
      apply readCommandD_intro _ _ recs _ ?_ hread
      show diskGet [(s.curGen + 1, recs), (s.curGen + 2, [])] (s.curGen + 1)
        = some recs
      rw [diskGet_cons, if_pos rfl]

theorem getOp_removePre_other (s : State) (k k' : String) (old : CommandPos)
    (h : INV s) (hne : k' ≠ k) : getOp (removePre s k old) k' = getOp s k' := by
  obtain ⟨hsort, hdec, hreplay, hnd, hvalid⟩ := h
  have hidx : idxGet k' (removePre s k old).index = idxGet k' s.index := by
    show idxGet k' (idxRemove k s.index) = _
    exact idxGet_remove_ne k' k (Ne.symm hne) s.index
  cases hget : idxGet k' s.index with
  | none => rw [getOp_absent _ _ (hidx.trans hget), getOp_absent _ _ hget]
  | some cp =>
    rcases hvalid (k', cp) (idxGet_mem k' cp s.index hget) with ⟨v', hv'⟩
    rw [getOp_present s k' k' v' cp hget hv',
      getOp_present (removePre s k old) k' k' v' cp (hidx.trans hget)
        (readCommandD_diskAppend s.disk s.curGen _ cp _ hv')]

/-! ### Operation-level specifications -/

theorem setOp_spec (s : State) (k v : String) (h : INV s) :
    ∃ s', setOp s k v = .ok s' ∧ INV s' ∧ getOp s' k = .ok (some v) ∧
      ∀ k', k' ≠ k → getOp s' k' = getOp s k' := by
  have hpre := INV_setPre s k v h
  by_cases hth : COMPACTION_THRESHOLD < (setPre s k v).uncompacted
  · rcases compact_spec _ hpre with ⟨s', hok, hinv', _, _, hget⟩
    refine ⟨s', ?_, hinv', ?_, ?_⟩
    · unfold setOp
      simp only []
      rw [if_pos hth]
      exact hok
    · rw [hget k, getOp_setPre_self s k v h]
    · intro k' hne
      rw [hget k', getOp_setPre_other s k v k' h hne]
  · refine ⟨setPre s k v, ?_, hpre, getOp_setPre_self s k v h, ?_⟩
    · unfold setOp
      simp only []
      rw [if_neg hth]
    · intro k' hne
      exact getOp_setPre_other s k v k' h hne

theorem removeOp_spec (s : State) (k : String) (old : CommandPos) (h : INV s)
    (hget : idxGet k s.index = some old) :
    ∃ s', removeOp s k = .ok s' ∧ INV s' ∧
      ∀ k', k' ≠ k → getOp s' k' = getOp s k' := by
  have hpre := INV_removePre s k old h
  by_cases hth : COMPACTION_THRESHOLD < (removePre s k old).uncompacted
  · rcases compact_spec _ hpre with ⟨s', hok, hinv', _, _, hget'⟩
    refine ⟨s', ?_, hinv', ?_⟩
    · unfold removeOp
      rw [hget]
      simp only []
      rw [if_pos hth]
      exact hok
    · intro k' hne
      rw [hget' k', getOp_removePre_other s k k' old h hne]
  · refine ⟨removePre s k old, ?_, hpre, ?_⟩
    · unfold removeOp
      rw [hget]
      simp only []
      rw [if_neg hth]
    · intro k' hne
      exact getOp_removePre_other s k k' old h hne

theorem removeOp_absent (s : State) (k : String)
    (hget : idxGet k s.index = none) :
    removeOp s k = .error .KeyNotFound := by
  unfold removeOp
  rw [hget]

theorem applyOp_cases (s : State) (op : Op) (s' : State) (h : INV s)
    (hok : applyOp s op = .ok s') :
    INV s' ∧ ∀ k, k ≠ opKey op → getOp s' k = getOp s k := by
  cases op with
  | set k v =>
    rcases setOp_spec s k v h with ⟨s'', hok', hinv, _, hother⟩
    rw [show applyOp s (Op.set k v) = setOp s k v from rfl, hok'] at hok
    cases hok
    exact ⟨hinv, fun k' hne => hother k' hne⟩
  | remove k =>
    cases hg : idxGet k s.index with
    | none =>
      rw [show applyOp s (Op.remove k) = removeOp s k from rfl,
        removeOp_absent s k hg] at hok
      cases hok
    | some old =>
      rcases removeOp_spec s k old h hg with ⟨s'', hok', hinv, hother⟩
      rw [show applyOp s (Op.remove k) = removeOp s k from rfl, hok'] at hok
      cases hok
      exact ⟨hinv, fun k' hne => hother k' hne⟩

theorem run_cons_elim (s : State) (op : Op) (rest : List Op) (s' : State)
    (h : run s (op :: rest) = .ok s') :
    ∃ s1, applyOp s op = .ok s1 ∧ run s1 rest = .ok s' := by
  unfold run at h
  cases ha : applyOp s op with
  | error e => rw [ha] at h; cases h
  | ok s1 =>
    rw [ha] at h
    exact ⟨s1, rfl, h⟩

theorem INV_run :
    ∀ (ops : List Op) (s s' : State), INV s → run s ops = .ok s' → INV s' := by
  intro ops
  induction ops with
  | nil =>
    intro s s' h hok
    cases hok
    exact h
  | cons op rest ih =>
    intro s s' h hok
    rcases run_cons_elim s op rest s' hok with ⟨s1, ha, hrest⟩
    exact ih s1 s' (applyOp_cases s op s1 h ha).1 hrest

theorem run_avoid_get (k : String) :
    ∀ (ops : List Op) (s s' : State), INV s → run s ops = .ok s' →
      (∀ op ∈ ops, opKey op ≠ k) → getOp s' k = getOp s k := by
  intro ops
  induction ops with
  | nil =>
    intro s s' _ hok _
    cases hok
    rfl
  | cons op rest ih =>
    intro s s' h hok hav
    rcases run_cons_elim s op rest s' hok with ⟨s1, ha, hrest⟩
    rcases applyOp_cases s op s1 h ha with ⟨hinv1, hget1⟩
    have h1 := ih s1 s' hinv1 hrest (fun o ho => hav o (List.mem_cons_of_mem _ ho))
    rw [h1]
    exact hget1 k (Ne.symm (hav op (List.mem_cons_self _ _)))

theorem lastGen_snoc (d₀ : Disk) (g : Nat) (seg : List Command) :
    lastGen (d₀ ++ [(g, seg)]) = g := by
  unfold lastGen
  rw [List.foldl_append]
  rfl

theorem INV_reopen (s : State) (h : INV s) : INV (openStore s.disk) := by
  obtain ⟨hsort, ⟨d₀, seg, hdec⟩, hreplay, hnd, hvalid⟩ := h
  have hsort0 : DiskSorted (d₀ ++ [(s.curGen, seg)]) := hdec ▸ hsort
  have hle : ∀ g' ∈ s.disk.map Prod.fst, g' ≤ s.curGen := by
    rw [hdec]
    exact diskGens_le d₀ _ seg hsort0
  have hlast : lastGen s.disk = s.curGen := by
    rw [hdec]
    exact lastGen_snoc d₀ _ seg
  have hnone : diskGet s.disk (lastGen s.disk + 1) = none := by
    rw [diskGet_eq_none_iff]
    intro hmem
    have hb := hle _ hmem
    rw [hlast] at hb
    omega
  have hcreate : diskCreate s.disk (lastGen s.disk + 1)
      = s.disk ++ [(lastGen s.disk + 1, [])] := diskCreate_of_none _ _ hnone
  have hsorteq := sortByGen_eq_self _ hsort
  have hdisk' : (openStore s.disk).disk = s.disk ++ [(lastGen s.disk + 1, [])] := by
    show diskCreate (sortByGen s.disk) (lastGen (sortByGen s.disk) + 1) = _
    rw [hsorteq, hcreate]
  have hcur : (openStore s.disk).curGen = lastGen s.disk + 1 := by
    show lastGen (sortByGen s.disk) + 1 = _
    rw [hsorteq]
  have hidx : (openStore s.disk).index = s.index := by
    show (loadDisk (sortByGen s.disk)).1 = _
    rw [hsorteq, hreplay]
  refine ⟨?_, ⟨s.disk, [], ?_⟩, ?_, ?_, ?_⟩
  · rw [hdisk']
    apply List.pairwise_append.mpr
    refine ⟨hsort, List.pairwise_singleton _ _, ?_⟩
    intro x hx y hy
    have hy' : y = (lastGen s.disk + 1, ([] : List Command)) := by simpa using hy
    rw [hy']
    show x.1 < lastGen s.disk + 1
    have hb := hle x.1 (List.mem_map_of_mem Prod.fst hx)
    rw [hlast]
    omega
  · rw [hdisk', hcur]
  · rw [hdisk', hidx, loadDisk_snoc]
    show (loadDisk s.disk).1 = s.index
    exact hreplay
  · rw [hidx]
    exact hnd
  · intro p hp
    rw [hidx] at hp
    rcases hvalid p hp with ⟨v, hv⟩
    refine ⟨v, ?_⟩
    show readCommandD (openStore s.disk).disk p.2 = _
    rw [hdisk']
    exact readCommandD_append s.disk _ p.2 _ hv

theorem reachable_INV (s : State) (h : Reachable s) : INV s := by
  induction h with
  | init => exact INV_openStore_nil
  | step s s' op _ hok ih => exact (applyOp_cases s op s' ih hok).1
  | reopen s _ ih => exact INV_reopen s ih

theorem reachable_run (s s' : State) (ops : List Op) (h : Reachable s)
    (hrun : run s ops = .ok s') : Reachable s' := by
  induction ops generalizing s with
  | nil =>
    cases hrun
    exact h
  | cons op rest ih =>
    rcases run_cons_elim s op rest s' hrun with ⟨s1, ha, hrest⟩
    exact ih s1 (Reachable.step s s1 op h ha) hrest

/-! ### Reopen, error-kind and generation lemmas -/

theorem openStore_reopen (s : State) (h : INV s) :
    ∀ k, getOp (openStore s.disk) k = getOp s k := by
  obtain ⟨hsort, hdecomp, hreplay, hnd, hvalid⟩ := h
  have hopen_idx : (openStore s.disk).index = s.index := by
    show (loadDisk (sortByGen s.disk)).1 = _
    rw [sortByGen_eq_self _ hsort, hreplay]
  have hopen_disk : (openStore s.disk).disk
      = diskCreate s.disk (lastGen s.disk + 1) := by
    show diskCreate (sortByGen s.disk) (lastGen (sortByGen s.disk) + 1) = _
    rw [sortByGen_eq_self _ hsort]
  intro k
  cases hget : idxGet k s.index with
  | none =>
    rw [getOp_absent s k hget]
    apply getOp_absent
    rw [hopen_idx]
    exact hget
  | some cp =>
    rcases hvalid (k, cp) (idxGet_mem k cp s.index hget) with ⟨v, hv⟩
    rw [getOp_present s k k v cp hget hv]
    apply getOp_present (openStore s.disk) k k v cp
    · rw [hopen_idx]
      exact hget
    · rw [hopen_disk]
      exact readCommandD_diskCreate _ _ _ _ hv

theorem getOp_some_present (s : State) (k v : String)
    (h : getOp s k = .ok (some v)) : ∃ cp, idxGet k s.index = some cp := by
  cases hget : idxGet k s.index with
  | none =>
    rw [getOp_absent s k hget] at h
    injection h with h1
    cases h1
  | some cp => exact ⟨cp, rfl⟩

theorem readCommandD_error_kind (d : Disk) (cp : CommandPos) (e : KvsError)
    (h : readCommandD d cp = .error e) : e = .Io ∨ e = .Serde := by
  cases hd : diskGet d cp.gen with
  | none =>
    simp [readCommandD, hd] at h
    exact Or.inl h.symm
  | some seg =>
    cases hr : readAt seg cp.pos cp.len with
    | some c => simp [readCommandD, hd, hr] at h
    | none =>
      simp [readCommandD, hd, hr] at h
      exact Or.inr h.symm

theorem compactEntries_error_kind (d : Disk) (cgen : Nat) :
    ∀ (entries : Index) (pos : Nat) (e : KvsError),
      compactEntries d cgen entries pos = .error e → e = .Io ∨ e = .Serde := by
  intro entries
  induction entries with
  | nil => intro pos e h; cases h
  | cons q rest ih =>
    obtain ⟨k0, cp0⟩ := q
    intro pos e h
    unfold compactEntries at h
    cases hr : readCommandD d cp0 with
    | error e' =>
      rw [hr] at h
      cases h
      exact readCommandD_error_kind d cp0 e hr
    | ok c =>
      rw [hr] at h
      cases hok : compactEntries d cgen rest (pos + cp0.len) with
      | error e' =>
        rw [hok] at h
        cases h
        exact ih _ _ hok
      | ok pr =>
        obtain ⟨ni, recs⟩ := pr
        rw [hok] at h
        cases h

theorem compactEntries_gens (d : Disk) (cgen : Nat) :
    ∀ (entries : Index) (pos : Nat) (ni : Index) (recs : List Command),
      compactEntries d cgen entries pos = .ok (ni, recs) →
      ∀ p ∈ ni, p.2.gen = cgen := by
  intro entries
  induction entries with
  | nil =>
    intro pos ni recs hok p hp
    cases hok
    simp at hp
  | cons q rest ih =>
    obtain ⟨k0, cp0⟩ := q
    intro pos ni recs hok p hp
    unfold compactEntries at hok
    cases hr : readCommandD d cp0 with
    | error e => rw [hr] at hok; cases hok
    | ok c =>
      rw [hr] at hok
      cases hok' : compactEntries d cgen rest (pos + cp0.len) with
      | error e => rw [hok'] at hok; cases hok
      | ok pr =>
        obtain ⟨ni', recs'⟩ := pr
        rw [hok'] at hok
        cases hok
        rcases List.mem_cons.mp hp with he | hm
        · rw [he]
        · exact ih _ _ _ hok' p hm

theorem compact_eq_of_error (fail : Nat → Bool) (s : State) (e : KvsError)
    (h : compactEntries (diskCreate (diskCreate s.disk (s.curGen + 1)) (s.curGen + 2))
      (s.curGen + 1) s.index 0 = .error e) :
    compact fail s = .error e := by
  unfold compact
  simp only []
  rw [h]

theorem compact_error_iff_aux (fail : Nat → Bool) (s : State) (e : KvsError) :
    compact fail s = .error e ↔
      compactEntries (diskCreate (diskCreate s.disk (s.curGen + 1)) (s.curGen + 2))
        (s.curGen + 1) s.index 0 = .error e := by
  constructor
  · intro hx
    cases hce : compactEntries (diskCreate (diskCreate s.disk (s.curGen + 1))
        (s.curGen + 2)) (s.curGen + 1) s.index 0 with
    | error e' =>
      rw [compact_eq_of_error fail s e' hce] at hx
      injection hx with hx
      rw [hx]
    | ok pr =>
      obtain ⟨ni, recs⟩ := pr
      rw [compact_eq_of_ok fail s ni recs hce] at hx
      cases hx
  · intro hx
    exact compact_eq_of_error fail s e hx

/-! ### The claims -/

/-- C1: after a successful `set(k,v)` on a reachable open store, `get(k)`
returns `Ok (Some v)` and keeps doing so across any further successful
operations whose key differs from `k`; and a single successful operation
on a different key never changes `get(k)` at all. -/
theorem set_get_roundtrip :
    (∀ (s s₁ s₂ : State) (k v : String) (ops : List Op),
      Reachable s → setOp s k v = .ok s₁ →
      (∀ op ∈ ops, opKey op ≠ k) → run s₁ ops = .ok s₂ →
      getOp s₂ k = .ok (some v)) ∧
    (∀ (s s' : State) (op : Op) (k : String),
      Reachable s → opKey op ≠ k → applyOp s op = .ok s' →
      getOp s' k = getOp s k) := by
  constructor
  · intro s s₁ s₂ k v ops hreach hset havoid hrun
    have hinv := reachable_INV s hreach
    rcases setOp_spec s k v hinv with ⟨s₁', hok, hinv1, hself, _⟩
    rw [hset] at hok
    injection hok with hok
    subst hok
    rw [run_avoid_get k ops _ s₂ hinv1 hrun havoid]
    exact hself
  · intro s s' op k hreach hne hok
    exact (applyOp_cases s op s' (reachable_INV s hreach) hok).2 k (Ne.symm hne)

theorem set_get_roundtrip_witness :
    getOp (stateAfter (openStore []) [Op.set "a" "x", Op.set "b" "y"]) "a"
      = .ok (some "x") :=
  set_get_roundtrip.1 (openStore [])
    (stateAfter (openStore []) [Op.set "a" "x"])
    (stateAfter (openStore []) [Op.set "a" "x", Op.set "b" "y"])
    "a" "x" [Op.set "b" "y"] Reachable.init (by rfl) (by decide) (by rfl)

/-- C2: for any sequence of successful operations on a store opened over
an empty directory, reopening the resulting directory yields the same
`get` observation for every key (replay in ascending generation order
rebuilds the same mapping). -/
theorem reopen_preserves_gets (ops : List Op) (s : State)
    (hrun : run (openStore []) ops = .ok s) (k : String) :
    getOp (openStore s.disk) k = getOp s k :=
  openStore_reopen s (INV_run ops _ s INV_openStore_nil hrun) k

theorem reopen_preserves_gets_witness :
    getOp (openStore (stateAfter (openStore [])
        [Op.set "a" "x", Op.set "b" "y", Op.remove "a"]).disk) "b"
      = getOp (stateAfter (openStore [])
          [Op.set "a" "x", Op.set "b" "y", Op.remove "a"]) "b" :=
  reopen_preserves_gets [Op.set "a" "x", Op.set "b" "y", Op.remove "a"]
    (stateAfter (openStore []) [Op.set "a" "x", Op.set "b" "y", Op.remove "a"])
    (by rfl) "b"

/-- C3: on any reachable store state, a successful compaction preserves
the `get` observation of every key. -/
theorem compaction_preserves_gets (s s' : State) (hreach : Reachable s)
    (hok : compact (fun _ => false) s = .ok s') (k : String) :
    getOp s' k = getOp s k := by
  rcases compact_spec s (reachable_INV s hreach) with ⟨s'', hok', _, _, _, hget⟩
  rw [hok] at hok'
  injection hok' with he
  subst he
  exact hget k

theorem compaction_preserves_gets_witness :
    getOp (compactResult (fun _ => false)
        (stateAfter (openStore []) [Op.set "a" "x", Op.set "b" "y"])) "a"
      = getOp (stateAfter (openStore []) [Op.set "a" "x", Op.set "b" "y"]) "a" :=
  compaction_preserves_gets
    (stateAfter (openStore []) [Op.set "a" "x", Op.set "b" "y"])
    (compactResult (fun _ => false)
      (stateAfter (openStore []) [Op.set "a" "x", Op.set "b" "y"]))
    (reachable_run (openStore []) _ [Op.set "a" "x", Op.set "b" "y"]
      Reachable.init (by rfl)) (by rfl) "a"

/-- C4: `remove(k)` fails with `KeyNotFound` exactly when `k` is absent
from the index; the failing branch returns before anything is written,
so the state (disk, index, dead-byte counter) is untouched. -/
theorem remove_absent_keynotfound (s : State) (k : String) :
    removeOp s k = .error .KeyNotFound ↔ idxGet k s.index = none := by
  constructor
  · intro h
    cases hg : idxGet k s.index with
    | none => rfl
    | some old =>
      exfalso
      unfold removeOp at h
      rw [hg] at h
      simp only [] at h
      by_cases hth : COMPACTION_THRESHOLD < (removePre s k old).uncompacted
      · rw [if_pos hth] at h
        rcases compactEntries_error_kind _ _ _ _ _
          ((compact_error_iff_aux _ _ _).mp h) with h1 | h1 <;> cases h1
      · rw [if_neg hth] at h
        cases h
  · intro h
    exact removeOp_absent s k h

/-- C5: a successful `remove(k)` of a present key adds exactly
`old.len + encLen (Remove k)` to the dead-byte counter — the superseded
`Set` record plus the `Remove` record's own bytes (stated below the
compaction threshold, where the counter survives to the end of the
call). -/
theorem remove_present_uncompacted (s : State) (k : String) (cp : CommandPos)
    (hget : idxGet k s.index = some cp)
    (hth : s.uncompacted + cp.len + encLen (Command.Remove k)
      ≤ COMPACTION_THRESHOLD) :
    ∃ s', removeOp s k = .ok s' ∧
      s'.uncompacted = s.uncompacted + cp.len + encLen (Command.Remove k) := by
  have hth' : ¬ COMPACTION_THRESHOLD < (removePre s k cp).uncompacted := by
    show ¬ COMPACTION_THRESHOLD
      < s.uncompacted + cp.len + encLen (Command.Remove k)
    omega
  refine ⟨removePre s k cp, ?_, rfl⟩
  unfold removeOp
  rw [hget]
  simp only []
  rw [if_neg hth']

theorem remove_present_uncompacted_witness :
    ∃ s', removeOp (stateAfter (openStore []) [Op.set "a" "x"]) "a" = .ok s' ∧
      s'.uncompacted
        = (stateAfter (openStore []) [Op.set "a" "x"]).uncompacted + 31 + 22 :=
  remove_present_uncompacted (stateAfter (openStore []) [Op.set "a" "x"]) "a"
    ⟨1, 0, 31⟩ (by rfl) (by decide)

/-- C6: compaction with writer generation `g` rewrites every index entry
to generation `g + 1` and switches the writer to `g + 2`; hence at
completion the active generation strictly exceeds every generation
referenced by the index. -/
theorem compact_gen_invariant (fail : Nat → Bool) (s s' : State)
    (hok : compact fail s = .ok s') :
    s'.curGen = s.curGen + 2 ∧
    ∀ p ∈ s'.index, p.2.gen = s.curGen + 1 ∧ p.2.gen < s'.curGen := by
  unfold compact at hok
  simp only [] at hok
  cases h : compactEntries (diskCreate (diskCreate s.disk (s.curGen + 1))
      (s.curGen + 2)) (s.curGen + 1) s.index 0 with
  | error e => rw [h] at hok; cases hok
  | ok pr =>
    obtain ⟨ni, recs⟩ := pr
    rw [h] at hok
    cases hok
    refine ⟨rfl, ?_⟩
    intro p hp
    have hg := compactEntries_gens _ _ s.index 0 ni recs h p hp
    refine ⟨hg, ?_⟩
    rw [hg]
    show s.curGen + 1 < s.curGen + 2
    omega

theorem compact_gen_invariant_witness :
    (compactResult (fun _ => false)
        (stateAfter (openStore []) [Op.set "a" "x"])).curGen
      = (stateAfter (openStore []) [Op.set "a" "x"]).curGen + 2 :=
  (compact_gen_invariant (fun _ => false)
    (stateAfter (openStore []) [Op.set "a" "x"])
    (compactResult (fun _ => false) (stateAfter (openStore []) [Op.set "a" "x"]))
    (by rfl)).1

/-- C7, counterexample: on a store with a stale segment (generation 1),
compaction whose every unlink fails still returns success, and the stale
segment is left on disk — the unlink I/O failure is swallowed (the code
only logs it), contradicting the claim that no I/O failure inside
compaction is swallowed. -/
theorem compact_swallows_unlink_failure :
    compact (fun _ => true) unlinkDemoState
      = .ok (compactResult (fun _ => true) unlinkDemoState) ∧
    diskGet (compactResult (fun _ => true) unlinkDemoState).disk 1
      = some [Command.Set "a" "x"] := by
  constructor
  · rfl
  · rfl

/-- C7 as amended: compaction fails with an error exactly when its
record-copy phase fails with that error, for every unlink-failure
oracle — so copy-phase I/O errors are surfaced unchanged, while a
failure to unlink a stale segment never affects the outcome (it is
logged and swallowed). -/
theorem compact_error_source (fail : Nat → Bool) (s : State) (e : KvsError) :
    compact fail s = .error e ↔
      compactEntries (diskCreate (diskCreate s.disk (s.curGen + 1)) (s.curGen + 2))
        (s.curGen + 1) s.index 0 = .error e :=
  compact_error_iff_aux fail s e

/-- C8: `get(k)` returns `Ok None` (not an error) when `k` is absent;
when present, it decodes the indexed record and returns `Ok (Some v)`
for a `Set` record with value `v`, and fails with
`UnexpectedCommandType` for a `Remove` record. -/
theorem get_semantics (s : State) (k : String) :
    (idxGet k s.index = none → getOp s k = .ok none) ∧
    (∀ cp, idxGet k s.index = some cp →
      (∀ k1 v, readCommandD s.disk cp = .ok (Command.Set k1 v) →
        getOp s k = .ok (some v)) ∧
      (∀ k1, readCommandD s.disk cp = .ok (Command.Remove k1) →
        getOp s k = .error .UnexpectedCommandType)) := by
  refine ⟨fun h => getOp_absent s k h, fun cp hcp => ⟨?_, ?_⟩⟩
  · intro k1 v hv
    exact getOp_present s k k1 v cp hcp hv
  · intro k1 hv
    simp [getOp, hcp, hv]

theorem get_semantics_witness :
    getOp (openStore []) "nope" = .ok none :=
  (get_semantics (openStore []) "nope").1 (by rfl)

/-- C9: `open` always starts the safe-point watermark at 0, whatever the
directory contains; and while the safe point is 0, `close_stale_handles`
evicts nothing, every cached generation being `≥ 0`. -/
theorem open_safe_point_zero :
    (∀ d : Disk, (openStore d).safePoint = 0) ∧
    (∀ s : State, s.safePoint = 0 → closeStaleHandles s = s) := by
  constructor
  · intro d
    rfl
  · intro s h
    unfold closeStaleHandles
    have hf : s.cache.filter (fun g => decide (s.safePoint ≤ g)) = s.cache :=
      List.filter_eq_self.mpr (fun g _ => by rw [h]; simp)
    rw [hf]

theorem open_safe_point_zero_witness :
    closeStaleHandles (openStore [(1, [Command.Set "a" "x"])])
      = openStore [(1, [Command.Set "a" "x"])] :=
  open_safe_point_zero.2 (openStore [(1, [Command.Set "a" "x"])])
    (open_safe_point_zero.1 [(1, [Command.Set "a" "x"])])

/-- C10: the empty string is a valid key: on any reachable state,
`set("", v)` succeeds, a subsequent `get("")` returns `Ok (Some v)`, and
`remove("")` then succeeds, exactly as for non-empty keys. -/
theorem empty_key_valid (s : State) (v : String) (hreach : Reachable s) :
    ∃ s₁ s₂, setOp s "" v = .ok s₁ ∧ getOp s₁ "" = .ok (some v) ∧
      removeOp s₁ "" = .ok s₂ := by
  have hinv := reachable_INV s hreach
  rcases setOp_spec s "" v hinv with ⟨s₁, hok, hinv1, hself, _⟩
  rcases getOp_some_present s₁ "" v hself with ⟨cp, hcp⟩
  rcases removeOp_spec s₁ "" cp hinv1 hcp with ⟨s₂, hok2, _, _⟩
  exact ⟨s₁, s₂, hok, hself, hok2⟩

theorem empty_key_valid_witness :
    ∃ s₁ s₂, setOp (openStore []) "" "v" = .ok s₁ ∧
      getOp s₁ "" = .ok (some "v") ∧ removeOp s₁ "" = .ok s₂ :=
  empty_key_valid (openStore []) "v" Reachable.init

end Kvs

